import Mathlib

/-!
Verification of the camlistore content-addressed store and indexer against
its natural-language specification.

Shallow embedding conventions:
* Blob refs are their formatted strings (`sha1-…`); the zero (invalid) ref is
  the empty string, which per the spec is distinguishable from every valid ref.
* Machine times are modelled as `Nat` (`0` is Go's zero `time.Time`).
* Go maps are modelled as association lists (`List (κ × ν)`) with
  first-match lookup; overwriting writes are modelled by filter-then-append.
* Fallible Go code returns `Except`/`Option`, or a `state × Option error`
  pair when the Go code mutates state in place before failing.
* Cryptographic digests, OpenPGP signature checks, and third-party binary
  parsers (EXIF, taglib) are not re-implemented: their observable outcomes
  are inputs to the embedded functions (oracle fields on the blob records).
-/

namespace Camlistore

/-! ## Sorted key/value store: the mongo implementation (pkg/sorted/mongo)

Embeds `CommitBatch`, `Upsert` and `Remove` from the mongo-backed
`sorted.KeyValue`.  The database is an association list of documents keyed by
the `k` field; mongo's `Collection.Remove` fails with `ErrNotFound` when no
document matches, and `CommitBatch` propagates that error without undoing the
mutations already applied. -/

/-- A document store: unique string keys to string values. -/
abbrev MongoStore := List (String × String)

/-- One entry of a `sorted.BatchMutation`: a set or a delete. -/
inductive Mutation
  | set (key value : String)
  | del (key : String)
deriving DecidableEq, Repr

/-- `kv.db.Upsert`: replace the document with matching key, or insert it. -/
def mongoUpsert (db : MongoStore) (k v : String) : MongoStore :=
  if (db.lookup k).isSome then
    db.map (fun p => if p.1 = k then (k, v) else p)
  else
    db ++ [(k, v)]

/-- `kv.db.Remove`: remove the matching document; `none` models
`mgo.ErrNotFound` when no document matches. -/
def mongoRemove (db : MongoStore) (k : String) : Option MongoStore :=
  if (db.lookup k).isSome then
    some (db.filter (fun p => p.1 ≠ k))
  else
    none

/-- `(*keyValue).CommitBatch` of the mongo store: applies the batch's
mutations in order, stopping at (and returning) the first error.  The
returned store is the store as left by the Go code: mutations applied before
the failure stay applied. -/
def CommitBatch (db : MongoStore) : List Mutation → MongoStore × Option String
  | [] => (db, none)
  | Mutation.del k :: ms =>
    match mongoRemove db k with
    | none => (db, some "not found")
    | some db2 => CommitBatch db2 ms
  | Mutation.set k v :: ms => CommitBatch (mongoUpsert db k v) ms

/-- Reference fold for a batch in which every mutation succeeds: a delete of
an absent key is a no-op here (used only to state which prefix of a failing
batch was applied). -/
def applySeq (db : MongoStore) (ms : List Mutation) : MongoStore :=
  ms.foldl
    (fun d m =>
      match m with
      | Mutation.set k v => mongoUpsert d k v
      | Mutation.del k => d.filter (fun p => p.1 ≠ k))
    db

/-! ## HTTP remove handler (pkg/blobserver/handlers/remove.go) -/

def maxRemovesPerRequest : Nat := 1000

/-- Modelled from the spec: `blob.Parse` (package `pkg/blob` is not part of
the sources).  Per the spec a BlobRef is "a digest-algorithm name plus a
lowercase hex digest", formatted `<algo>-<hex>`. -/
def blobParse (s : String) : Option String :=
  match s.data.splitOn '-' with
  | [algo, digest] =>
    if algo ≠ [] ∧ digest ≠ [] ∧
        digest.all (fun c => c.isDigit ∨ ('a' ≤ c ∧ c ≤ 'f')) then
      some s
    else
      none
  | _ => none

/-- The `blob<n>` form key read at step `n` of the remove loop. -/
def blobKey (n : Nat) : String := "blob" ++ toString n

/-- Outcome of the remove handler: a 400, a 403, or the 200 JSON reply
listing the removed refs.  `storage.RemoveBlobs` is only reached in the
`removed` case. -/
inductive RemoveResponse
  | badRequest (msg : String)
  | forbidden
  | removed (refs : List String)
deriving DecidableEq, Repr

/-- The scan loop of `handleRemove`.  The Go loop counts `n` upward and
rejects when `n > maxRemovesPerRequest` before reading `blob<n>`; here
`fuel = maxRemovesPerRequest + 1 - n` decreases structurally, so `fuel = 0`
is exactly the Go rejection point (after `maxRemovesPerRequest` values have
been read).  `fv` is `req.FormValue` ("" when the key is absent). -/
def handleRemoveLoop (fv : String → String) : Nat → Nat → List String → RemoveResponse
  | 0, _, _ => RemoveResponse.badRequest "Too many removes in this request"
  | fuel + 1, n, acc =>
    let value := fv (blobKey n)
    if value = "" then
      RemoveResponse.removed acc
    else
      match blobParse value with
      | none => RemoveResponse.badRequest ("Bogus blobref for key " ++ blobKey n)
      | some ref => handleRemoveLoop fv fuel (n + 1) (acc ++ [ref])

/-- `handleRemove`: the `Configer`/`Deletable` checks are collapsed into the
`deletable` flag; on success the accumulated refs are handed to
`storage.RemoveBlobs` and echoed as the `removed` reply. -/
def handleRemove (deletable : Bool) (fv : String → String) : RemoveResponse :=
  if deletable then
    handleRemoveLoop fv maxRemovesPerRequest 1 []
  else
    RemoveResponse.forbidden

/-! ## The deletes cache (pkg/index: `deletionCache`, `isDeleted`) -/

/-- One recorded deletion: which delete-claim deletes the target, and when. -/
structure Deletion where
  deleter : String
  when : Nat
deriving DecidableEq, Repr

/-- The deletes cache `x.deletes.m : map[blob.Ref][]deletion`. -/
abbrev DeletesCache := List (String × List Deletion)

/-- `(*Index).isDeleted`, the recursive walk of the deletes cache: a blob is
deleted iff some delete-claim targeting it is itself not deleted.  The Go
recursion terminates because no delete-claim chain can form a cycle
(a claim embeds its target's digest); the embedding makes that measure an
explicit fuel argument, and the theorems require the fuel to exceed the rank
of the blob in the (acyclic) deleter graph. -/
def isDeletedF (m : DeletesCache) : Nat → String → Bool
  | 0, _ => false
  | n + 1, br =>
    match m.lookup br with
    | none => false
    | some deletes => deletes.any (fun v => !(isDeletedF m n v.deleter))

/-! ## Index key space (pkg/index)

The pipe-delimited string keys of the index are modelled structurally: each
key family is a constructor carrying its components in order.  The encoding
into `"have:<ref>"`, `"claim|<pn>|<keyId>|<date>|<claimRef>"` etc. is
injective, so the structured form is faithful.  Values are likewise
structured per family. -/

inductive IndexKey
  | haveRow (ref : String)
  | metaRow (ref : String)
  | signerkeyid (signer : String)
  | deletedRow (target : String) (claimDate : String) (claimRef : String)
  | recpn (keyId : String) (claimDate : String) (claimRef : String)
  | claimRow (permanode keyId claimDate claimRef : String)
  | signerattrvalue (keyId attr value claimDate claimRef : String)
  | pathForward (keyId base suffix claimDate claimRef : String)
  | pathBackward (keyId target claimRef : String)
  | edgeback (target fromRef claimRef : String)
  | wholetofile (wholeRef fileRef : String)
  | fileinfo (ref : String)
  | filetimes (ref : String)
  | staticdirchild (parent child : String)
deriving DecidableEq, Repr

inductive IndexVal
  | str (s : String)
  | metaV (size : Nat) (mime : String)
  | claimV (claimType attr value signer : String)
  | pathForwardV (active : String) (target : String)
  | pathBackwardV (claimDate base active suffix : String)
  | fileInfoV (size : Nat) (fileName mime : String)
deriving DecidableEq, Repr

/-- `mutationMap`: the keys and values one received blob commits, plus the
delete claims noted for the post-commit deletes-cache update. -/
structure MutationMapKV where
  kv : List (IndexKey × IndexVal)
deriving DecidableEq, Repr

/-- `(*mutationMap).Set`: map assignment (overwrite on the same key). -/
def MutationMapKV.set (mm : MutationMapKV) (k : IndexKey) (v : IndexVal) : MutationMapKV :=
  ⟨mm.kv.filter (fun p => p.1 ≠ k) ++ [(k, v)]⟩

/-- The string constants of the claim types (pkg/schema). -/
def SetAttributeClaim : String := "set-attribute"

def AddAttributeClaim : String := "add-attribute"

def DelAttributeClaim : String := "del-attribute"

def DeleteClaim : String := "delete"

/-- A parsed, signed claim schema blob as `populateClaim` consumes it.  The
signature check (`jsonsign.NewVerificationRequest(...).Verify()`) and the
claim accessors of `pkg/schema` (not part of the sources) are oracle fields:
`verifies`, `signerKeyId` and `camliSigner` are the outcome of verifying this
blob's JSON against the index's `KeyFetcher`.  The invalid (zero) blob ref is
`""`. -/
structure ClaimBlob where
  blobRef : String
  /-- whether `b.AsClaim()` succeeds (false for a bogus claim with a
  malformed permanode). -/
  wellFormed : Bool
  /-- the result of `vr.Verify()`. -/
  verifies : Bool
  /-- `vr.Err`, when verification failed with an error value. -/
  verifyErrMsg : Option String
  signerKeyId : String
  camliSigner : String
  claimType : String
  /-- `cl.Target()` (`""` when invalid). -/
  target : String
  /-- `cl.ModifiedPermanode()` (`""` when invalid). -/
  permanode : String
  attr : String
  value : String
  /-- `cl.ClaimDateString()`. -/
  claimDateString : String
  /-- `cl.ClaimDate()` as a `Nat` time; `none` when the date fails to parse. -/
  claimDate : Option Nat
deriving DecidableEq, Repr

structure MutationMap where
  kv : List (IndexKey × IndexVal)
  deletes : List ClaimBlob
deriving DecidableEq, Repr

def MutationMap.set (mm : MutationMap) (k : IndexKey) (v : IndexVal) : MutationMap :=
  { mm with kv := mm.kv.filter (fun p => p.1 ≠ k) ++ [(k, v)] }

/-- `(*mutationMap).noteDelete`. -/
def MutationMap.noteDelete (mm : MutationMap) (cl : ClaimBlob) : MutationMap :=
  { mm with deletes := mm.deletes ++ [cl] }

/-- A parsed file schema blob as `populateFile` consumes it, with the outcome
of reading its chunk tree through the index's `BlobSource` as oracle fields
(the chunk fetches, SHA-1, image decoding and EXIF/taglib parsing are outside
the embedding). -/
structure FileBlob where
  blobRef : String
  fileName : String
  /-- `b.ModTime()`: `none` models Go's zero time. -/
  modTime : Option String
  /-- whether `b.NewFileReader(fetcher)` fails (e.g. chunk blobs missing). -/
  readerErr : Bool
  /-- whether the `io.Copy` over the file contents fails. -/
  copyErr : Bool
  /-- the refs the `seekFetcherMissTracker` recorded as missing
  (`os.ErrNotExist` fetches) while reading. -/
  missingOnRead : List String
  /-- sniffed MIME of the contents. -/
  mime : String
  size : Nat
  /-- SHA-1 of the reconstituted contents. -/
  wholeRef : String
  /-- rows produced by `images.DecodeConfig` + `indexEXIF` when the MIME is
  `image/*` (third-party decoding). -/
  imageRows : List (IndexKey × IndexVal)
  /-- `schema.FileTime` of the image header, when it parses. -/
  exifTime : Option String
  /-- rows produced by `indexMusic` when the MIME is `audio/*`. -/
  audioRows : List (IndexKey × IndexVal)
deriving DecidableEq, Repr

/-- A parsed directory schema blob for `populateDir`, with the outcome of
reading its static-set as oracle fields. -/
structure DirBlob where
  blobRef : String
  fileName : String
  /-- whether `b.NewDirReader` fails. -/
  readerErr : Bool
  /-- whether `dr.StaticSet()` fails. -/
  staticSetErr : Bool
  members : List String
deriving DecidableEq, Repr

/-- The sniffer's parse result: `camliType` dispatch of a schema blob. -/
inductive SchemaParsed
  | claimB (c : ClaimBlob)
  | fileB (f : FileBlob)
  | dirB (d : DirBlob)
  | otherType (camliType : String)
deriving DecidableEq, Repr

/-- What `BlobSniffer` exposes after `Parse`: the byte count written, the
sniffed MIME type, and the schema blob when one was recognized. -/
structure Sniffed where
  size : Nat
  mime : String
  schema : Option SchemaParsed
deriving DecidableEq, Repr

/-- `camliTypeFromMIME`: `"application/json; camliType=file"` ↦ `"file"`,
anything else ↦ `""`. -/
def camliTypeMIMEPrefix : String := "application/json; camliType="

def camliTypeFromMIME (mime : String) : String :=
  if mime.startsWith camliTypeMIMEPrefix then
    mime.drop camliTypeMIMEPrefix.length
  else
    ""

structure BlobMeta where
  ref : String
  size : Nat
  camliType : String
deriving DecidableEq, Repr

/-- The `Index` state the embedded receive path touches: the sorted KV store
and the deletes cache.  No in-memory corpus is attached (`ix.corpus = nil`).
`pendingReindex` is modelled from the spec: the record of "missing dependency
blobs … so that a later reindex can retry" that the spec describes; the
source only contains a TODO where such recording would happen, and nothing
ever writes it. -/
structure Index where
  s : List (IndexKey × IndexVal)
  deletes : DeletesCache
  pendingReindex : List String
deriving DecidableEq, Repr

/-- Set one key of the sorted KV store (a batch `Set`). -/
def kvSet (s : List (IndexKey × IndexVal)) (k : IndexKey) (v : IndexVal) :
    List (IndexKey × IndexVal) :=
  s.filter (fun p => p.1 ≠ k) ++ [(k, v)]

/-- `(*Index).GetBlobMeta` (the KV path: no corpus attached): reads the
`meta:<ref>` row and derives the camliType from the MIME.  `none` models both
`os.ErrNotExist` and a malformed row. -/
def Index.GetBlobMeta (ix : Index) (br : String) : Option BlobMeta :=
  match ix.s.lookup (IndexKey.metaRow br) with
  | some (IndexVal.metaV size mime) => some ⟨br, size, camliTypeFromMIME mime⟩
  | _ => none

/-- `IsIndexedAttribute` (pkg/index). -/
def IsIndexedAttribute (attr : String) : Bool :=
  attr = "camliRoot" ∨ attr = "camliImportRoot" ∨ attr = "tag" ∨ attr = "title"

/-- `IsBlobReferenceAttribute` (pkg/index). -/
def IsBlobReferenceAttribute (attr : String) : Bool :=
  attr = "camliMember"

/-- `(*Index).populateDeleteClaim`: adds the rows of the delete claim `cl` to
`mm`.  An invalid target, a target with unknown metadata, or a target that is
neither a permanode nor a claim only logs and leaves `mm` untouched. -/
def populateDeleteClaim (ix : Index) (cl : ClaimBlob) (mm : MutationMap) : MutationMap :=
  if cl.target = "" then
    mm
  else
    match ix.GetBlobMeta cl.target with
    | none => mm
    | some meta =>
      if meta.camliType ≠ "permanode" ∧ meta.camliType ≠ "claim" then
        mm
      else
        let mm := mm.set (IndexKey.deletedRow cl.target cl.claimDateString cl.blobRef)
          (IndexVal.str "")
        if meta.camliType = "claim" then
          mm
        else
          let mm := mm.set (IndexKey.recpn cl.signerKeyId cl.claimDateString cl.blobRef)
            (IndexVal.str cl.target)
          mm.set (IndexKey.claimRow cl.target cl.signerKeyId cl.claimDateString cl.blobRef)
            (IndexVal.claimV cl.claimType cl.attr cl.value cl.camliSigner)

/-- `(*Index).populateClaim`.  A claim that is not well formed is skipped
(no error); a claim whose signature fails verification returns an error. -/
def populateClaim (ix : Index) (b : ClaimBlob) (mm : MutationMap) :
    Except String MutationMap :=
  if ¬ b.wellFormed then
    Except.ok mm
  else if ¬ b.verifies then
    Except.error (b.verifyErrMsg.getD "index: populateClaim verification failure")
  else
    let mm := mm.set (IndexKey.signerkeyid b.camliSigner) (IndexVal.str b.signerKeyId)
    if b.claimType = DeleteClaim then
      Except.ok ((populateDeleteClaim ix b mm).noteDelete b)
    else if b.permanode = "" then
      Except.ok mm
    else
      let pnbr := b.permanode
      let mm := mm.set (IndexKey.recpn b.signerKeyId b.claimDateString b.blobRef)
        (IndexVal.str pnbr)
      let mm := mm.set (IndexKey.claimRow pnbr b.signerKeyId b.claimDateString b.blobRef)
        (IndexVal.claimV b.claimType b.attr b.value b.camliSigner)
      let mm :=
        if b.attr.startsWith "camliPath:" then
          match blobParse b.value with
          | some targetRef =>
            let suffix := b.attr.drop "camliPath:".length
            let active := if b.claimType = DelAttributeClaim then "N" else "Y"
            let mm := mm.set (IndexKey.pathBackward b.signerKeyId targetRef b.blobRef)
              (IndexVal.pathBackwardV b.claimDateString pnbr active suffix)
            mm.set (IndexKey.pathForward b.signerKeyId pnbr suffix b.claimDateString b.blobRef)
              (IndexVal.pathForwardV active targetRef)
          | none => mm
        else
          mm
      let mm :=
        if b.claimType ≠ DelAttributeClaim ∧ IsIndexedAttribute b.attr then
          mm.set (IndexKey.signerattrvalue b.signerKeyId b.attr b.value b.claimDateString b.blobRef)
            (IndexVal.str pnbr)
        else
          mm
      let mm :=
        if IsBlobReferenceAttribute b.attr then
          match blobParse b.value with
          | some targetRef =>
            mm.set (IndexKey.edgeback targetRef pnbr b.blobRef)
              (IndexVal.claimV "permanode" "" "" "")
          | none => mm
        else
          mm
      Except.ok mm

/-- The `"<oldest>,<newest>"` (or single) value of the `filetimes` row, from
the nonzero times seen, sorted. -/
def fileTimesValue (times : List String) : String :=
  let sorted := times.mergeSort (fun a b => a ≤ b)
  match sorted with
  | [] => ""
  | [t] => t
  | t :: t2 :: rest => t ++ "," ++ List.getLast (t2 :: rest) (List.cons_ne_nil _ _)

/-- `(*Index).populateFile`.  Every failure path logs and returns `nil`: a
file whose chunks cannot be read contributes no rows beyond `have:`/`meta:`;
the refs collected by the miss tracker are returned alongside so that their
discarding is visible (`populateMutationMap` drops them, mirroring the
empty TODO in the source's deferred handler). -/
def populateFile (b : FileBlob) (mm : MutationMap) : MutationMap × List String :=
  if b.readerErr then
    (mm, b.missingOnRead)
  else if b.copyErr then
    (mm, b.missingOnRead)
  else
    let isImage := b.mime.startsWith "image/"
    let mm := if isImage then b.imageRows.foldl (fun m p => m.set p.1 p.2) mm else mm
    let times := (if isImage then [b.modTime, b.exifTime] else [b.modTime]).filterMap id
    let mm := mm.set (IndexKey.wholetofile b.wholeRef b.blobRef) (IndexVal.str "1")
    let mm := mm.set (IndexKey.fileinfo b.blobRef)
      (IndexVal.fileInfoV b.size b.fileName b.mime)
    let mm := mm.set (IndexKey.filetimes b.blobRef) (IndexVal.str (fileTimesValue times))
    let mm :=
      if b.mime.startsWith "audio/" then b.audioRows.foldl (fun m p => m.set p.1 p.2) mm
      else mm
    (mm, b.missingOnRead)

/-- `(*Index).populateDir`: failures reading the static-set log and leave
`mm` untouched. -/
def populateDir (d : DirBlob) (mm : MutationMap) : MutationMap :=
  if d.readerErr then
    mm
  else if d.staticSetErr then
    mm
  else
    let mm := mm.set (IndexKey.fileinfo d.blobRef)
      (IndexVal.fileInfoV d.members.length d.fileName "")
    d.members.foldl (fun m br => m.set (IndexKey.staticdirchild d.blobRef br) (IndexVal.str "1")) mm

/-- `(*Index).populateMutationMap`: the unconditional `have:`/`meta:` rows
plus the per-camliType rows. -/
def populateMutationMap (ix : Index) (br : String) (sn : Sniffed) :
    Except String MutationMap :=
  let mm : MutationMap :=
    { kv := [(IndexKey.haveRow br, IndexVal.str (toString sn.size)),
             (IndexKey.metaRow br, IndexVal.metaV sn.size sn.mime)],
      deletes := [] }
  match sn.schema with
  | some (SchemaParsed.claimB c) => populateClaim ix c mm
  | some (SchemaParsed.fileB f) => Except.ok (populateFile f mm).1
  | some (SchemaParsed.dirB d) => Except.ok (populateDir d mm)
  | _ => Except.ok mm

/-- `byDeletionDate` descending sort used by `updateDeletesCache`. -/
def sortDeletionsDesc (l : List Deletion) : List Deletion :=
  l.mergeSort (fun a b => b.when ≤ a.when)

/-- `(*Index).updateDeletesCache`: append the new deletion for the claim's
target and re-sort that target's list by date descending. -/
def updateDeletesCache (dc : DeletesCache) (cl : ClaimBlob) : Except String DeletesCache :=
  match cl.claimDate with
  | none => Except.error "Could not get date of delete claim"
  | some when =>
    let targetDeletions := ((dc.lookup cl.target).getD []) ++ [⟨cl.blobRef, when⟩]
    Except.ok (dc.filter (fun p => p.1 ≠ cl.target) ++
      [(cl.target, sortDeletionsDesc targetDeletions)])

/-- `(*Index).commit`: write the mutation map as one batch, then apply the
noted delete claims to the deletes cache (under the same lock). -/
def Index.commit (ix : Index) (mm : MutationMap) : Except String Index :=
  let s2 := mm.kv.foldl (fun st p => kvSet st p.1 p.2) ix.s
  match mm.deletes.foldlM (fun dc cl => updateDeletesCache dc cl) ix.deletes with
  | Except.error e => Except.error e
  | Except.ok dc2 => Except.ok { ix with s := s2, deletes := dc2 }

structure SizedRef where
  ref : String
  size : Nat
deriving DecidableEq, Repr

/-- `(*Index).ReceiveBlob`: sniff, skip when `have:<ref>` is already present,
populate the mutation map, commit.  On `Except.error` the Go method returns
before `commit`, so the index state is unchanged. -/
def Index.ReceiveBlob (ix : Index) (blobRef : String) (sn : Sniffed) :
    Except String (SizedRef × Index) :=
  if (ix.s.lookup (IndexKey.haveRow blobRef)).isSome then
    Except.ok (⟨blobRef, sn.size⟩, ix)
  else
    match populateMutationMap ix blobRef sn with
    | Except.error e => Except.error e
    | Except.ok mm =>
      match ix.commit mm with
      | Except.error e => Except.error e
      | Except.ok ix2 => Except.ok (⟨blobRef, sn.size⟩, ix2)

/-! ## Corpus (pkg/index/corpus.go) -/

/-- `camtypes.Claim` as kept in a `PermanodeMeta`. -/
structure CorpusClaim where
  blobRef : String
  signer : String
  permanode : String
  date : Nat
  claimType : String
  attr : String
  value : String
deriving DecidableEq, Repr

structure PermanodeMeta where
  claims : List CorpusClaim
deriving DecidableEq, Repr

structure Corpus where
  permanodes : List (String × PermanodeMeta)
deriving DecidableEq, Repr

/-- `(*Corpus).isDeletedLocked` — the source is the stub
`// TODO: implement` / `return false`. -/
def Corpus.isDeletedLocked (_c : Corpus) (_br : String) : Bool :=
  false

/-- `(*Corpus).PermanodeModtimeLocked`: max claim date over claims not
skipped by `isDeletedLocked`; `ok` is `!t.IsZero()`.  Returned as
`(t, ok)`. -/
def Corpus.PermanodeModtimeLocked (c : Corpus) (pn : String) : Nat × Bool :=
  match c.permanodes.lookup pn with
  | none => (0, false)
  | some pm =>
    let t := pm.claims.foldl
      (fun t cl =>
        if c.isDeletedLocked cl.blobRef then t
        else if t < cl.date then cl.date else t)
      0
    (t, t ≠ 0)

/-- The `switch cl.Type` body of `AppendPermanodeAttrValuesLocked`:
del-attribute with empty value clears, del-attribute with a value removes
every occurrence, set-attribute replaces the whole list, add-attribute
appends (with no uniqueness check); other types fall through unchanged. -/
def applyClaimValue (dst : List String) (cl : CorpusClaim) : List String :=
  if cl.claimType = DelAttributeClaim then
    if cl.value = "" then [] else dst.filter (fun v => v ≠ cl.value)
  else if cl.claimType = SetAttributeClaim then
    [cl.value]
  else if cl.claimType = AddAttributeClaim then
    dst ++ [cl.value]
  else
    dst

/-- Whether `AppendPermanodeAttrValuesLocked` skips the claim `cl`. -/
def attrClaimSkipped (attr : String) (t : Nat) (signerFilter : String)
    (cl : CorpusClaim) : Bool :=
  cl.attr ≠ attr ∨ t < cl.date ∨ (signerFilter ≠ "" ∧ signerFilter ≠ cl.signer)

/-- `(*Corpus).AppendPermanodeAttrValuesLocked` with the required empty
`dst`.  A zero `at` time (here `atTime = 0`) stands for `time.Now()`, passed
explicitly as `now`; the invalid (zero) signer filter ref is `""`. -/
def Corpus.AppendPermanodeAttrValuesLocked (c : Corpus) (permaNode : String)
    (attr : String) (atTime : Nat) (now : Nat) (signerFilter : String) : List String :=
  match c.permanodes.lookup permaNode with
  | none => []
  | some pm =>
    let t := if atTime = 0 then now else atTime
    pm.claims.foldl
      (fun dst cl =>
        if attrClaimSkipped attr t signerFilter cl then dst
        else applyClaimValue dst cl)
      []

/-- The spec's claim-application reduction, stated in the spec's own shape:
select the claims on the permanode for the attribute (up to the cutoff and
matching the signer filter) and fold the set/add/del semantics over them in
list order. -/
def specAttrValueReduction (claims : List CorpusClaim) (attr : String) (t : Nat)
    (signerFilter : String) : List String :=
  (claims.filter (fun cl => !attrClaimSkipped attr t signerFilter cl)).foldl
    applyClaimValue []

/-- The reduction exactly as the spec's sentence words it, with "add appends
the value keeping values unique": used to exhibit the divergence of the code
from that sentence. -/
def specAttrValueReductionUnique (claims : List CorpusClaim) (attr : String)
    (t : Nat) (signerFilter : String) : List String :=
  (claims.filter (fun cl => !attrClaimSkipped attr t signerFilter cl)).foldl
    (fun dst cl =>
      if cl.claimType = DelAttributeClaim then
        if cl.value = "" then [] else dst.filter (fun v => v ≠ cl.value)
      else if cl.claimType = SetAttributeClaim then
        [cl.value]
      else if cl.claimType = AddAttributeClaim then
        if dst.contains cl.value then dst else dst ++ [cl.value]
      else
        dst)
    []

/-! ## Merged enumerate (pkg/blobserver/mergedenum.go)

Each source is embedded as the list of refs its `EnumerateBlobs` sends
before closing its channel (in ref-ascending order, each `> after`, per the
enumerate contract), together with the error it returns.  The `ChanPeeker`
loop of `MergedEnumerate` is then a deterministic k-way merge: each round
first drains every peeker of refs `≤ lastSent`, then emits the lowest head.

The loop's only operations on refs are comparisons in the total order of
their formatted strings (`sb.Ref.String()`), so refs are embedded here by
their rank in that order, as `Nat`; the empty string — the initial
`lastSent`, strictly below every valid ref — is rank `0`.  Sizes ride along
unchanged in the source and are dropped. -/

/-- The inner `for idx, peeker := range peekers` selection: the lowest head
among the non-closed peekers, earlier peekers winning ties. -/
def minHead? : List (List Nat) → Option Nat
  | [] => none
  | [] :: ps => minHead? ps
  | (x :: _) :: ps =>
    match minHead? ps with
    | none => some x
    | some m => if m < x then some m else some x

/-- One `nSent < limit` round per fuel unit: drain refs `≤ lastSent`, pick
the lowest remaining head, send it.  The fuel is `limit - nSent`, which the
Go loop decrements by exactly one per send. -/
def mergeLoop : Nat → Nat → List (List Nat) → List Nat
  | 0, _, _ => []
  | n + 1, lastSent, peekers =>
    let ps := peekers.map (fun l => l.dropWhile (fun s => decide (s ≤ lastSent)))
    match minHead? ps with
    | none => []
    | some lowest => lowest :: mergeLoop n lowest ps

/-- What `MergedEnumerate` leaves behind: the refs sent on `dest`, whether
`dest` was closed (the `defer close(dest)` makes this unconditional), and the
returned error (the last non-nil source error). -/
structure MergedResult where
  sent : List Nat
  closed : Bool
  err : Option String
deriving DecidableEq, Repr

/-- `MergedEnumerate`.  `after` itself is only forwarded to the sources in
the Go code; each source list is assumed to embody it already. -/
def MergedEnumerate (sources : List (List Nat × Option String))
    (_after : Nat) (limit : Nat) : MergedResult :=
  { sent := mergeLoop limit 0 (sources.map Prod.fst),
    closed := true,
    err := sources.foldl
      (fun acc s => match s.2 with | some e => some e | none => acc) none }

/-- The spec's "sorted, duplicate-free union" of the sources' outputs. -/
def sortedDedupUnion (lists : List (List Nat)) : List Nat :=
  lists.flatten.toFinset.sort (fun a b => a ≤ b)

/-! ## Concrete instances used by witnesses and counterexamples -/

/-- A well-formed claim blob whose signature fails verification. -/
def cbBadSig : ClaimBlob :=
  { blobRef := "sha1-cc", wellFormed := true, verifies := false, verifyErrMsg := none,
    signerKeyId := "2931A67C26F5ABDA", camliSigner := "sha1-ee",
    claimType := SetAttributeClaim, target := "", permanode := "sha1-pn",
    attr := "title", value := "hello", claimDateString := "2013-02-03T04:05:06Z",
    claimDate := some 10 }

/-- A file schema blob whose chunk blobs could not be fetched: the
`NewFileReader` call fails and the miss tracker collected one ref. -/
def fbMissingChunk : FileBlob :=
  { blobRef := "sha1-ff", fileName := "f.txt", modTime := some "2013-01-01T00:00:00Z",
    readerErr := true, copyErr := false, missingOnRead := ["sha1-chunk"],
    mime := "text/plain", size := 3, wholeRef := "", imageRows := [],
    exifTime := none, audioRows := [] }

/-- A verified delete claim whose target is unknown to the index. -/
def delClaimUnknown : ClaimBlob :=
  { blobRef := "sha1-dd", wellFormed := true, verifies := true, verifyErrMsg := none,
    signerKeyId := "2931A67C26F5ABDA", camliSigner := "sha1-ee",
    claimType := DeleteClaim, target := "sha1-unknown", permanode := "",
    attr := "", value := "", claimDateString := "2013-02-03T04:05:06Z",
    claimDate := some 10 }

/-- An index that already has the `have:` row for `sha1-aa`. -/
def ixHaveAA : Index :=
  { s := [(IndexKey.haveRow "sha1-aa", IndexVal.str "3")], deletes := [], pendingReindex := [] }

/-- The empty index. -/
def ixEmpty : Index := { s := [], deletes := [], pendingReindex := [] }

/-- Two add-attribute claims for the same value (date order). -/
def dupAddClaims : List CorpusClaim :=
  [{ blobRef := "sha1-c1", signer := "sha1-ee", permanode := "sha1-pn", date := 1,
     claimType := AddAttributeClaim, attr := "tag", value := "x" },
   { blobRef := "sha1-c2", signer := "sha1-ee", permanode := "sha1-pn", date := 2,
     claimType := AddAttributeClaim, attr := "tag", value := "x" }]

def dupAddCorpus : Corpus := ⟨[("sha1-pn", ⟨dupAddClaims⟩)]⟩

/-- The E3-style claim sequence: set title, add tag x, add tag y, del tag x. -/
def e3Claims : List CorpusClaim :=
  [{ blobRef := "sha1-c1", signer := "sha1-ee", permanode := "sha1-pn", date := 1,
     claimType := SetAttributeClaim, attr := "title", value := "hello" },
   { blobRef := "sha1-c2", signer := "sha1-ee", permanode := "sha1-pn", date := 2,
     claimType := AddAttributeClaim, attr := "tag", value := "x" },
   { blobRef := "sha1-c3", signer := "sha1-ee", permanode := "sha1-pn", date := 3,
     claimType := AddAttributeClaim, attr := "tag", value := "y" },
   { blobRef := "sha1-c4", signer := "sha1-ee", permanode := "sha1-pn", date := 4,
     claimType := DelAttributeClaim, attr := "tag", value := "x" }]

def e3Corpus : Corpus := ⟨[("sha1-pn", ⟨e3Claims⟩)]⟩

/-- The single claim of `oneClaimCorpus`. -/
def oneClaim : CorpusClaim :=
  { blobRef := "sha1-cl", signer := "sha1-ee", permanode := "sha1-pn",
    date := 5, claimType := SetAttributeClaim, attr := "title", value := "hello" }

/-- A corpus whose only permanode has exactly one claim, `sha1-cl`. -/
def oneClaimCorpus : Corpus := ⟨[("sha1-pn", ⟨[oneClaim]⟩)]⟩

/-- A deletes cache in which that claim `sha1-cl` is deleted. -/
def oneClaimDeletes : DeletesCache := [("sha1-cl", [⟨"sha1-del", 7⟩])]

/-- The E4 deletion chain: D1 deletes P, D2 deletes D1, D3 deletes D2. -/
def chainDeletes : DeletesCache :=
  [("sha1-p", [⟨"sha1-d1", 1⟩]),
   ("sha1-d1", [⟨"sha1-d2", 2⟩]),
   ("sha1-d2", [⟨"sha1-d3", 3⟩])]

/-- A topological rank for `chainDeletes` (deleters rank below targets). -/
def chainRank : String → Nat :=
  fun r => if r = "sha1-p" then 3 else if r = "sha1-d1" then 2 else if r = "sha1-d2" then 1 else 0

/-- A remove request with a numbering gap: `blob1` is a valid ref, `blob2` is
absent, `blob3` is an unparseable blobref. -/
def gapForm : String → String :=
  fun k => if k = "blob1" then "sha1-aa" else if k = "blob3" then "bogusref" else ""

/-- The index state after committing exactly the unconditional `have:` and
`meta:` rows of one received blob. -/
def Index.withHaveMeta (ix : Index) (br : String) (size : Nat) (mime : String) : Index :=
  { ix with
    s := kvSet (kvSet ix.s (IndexKey.haveRow br) (IndexVal.str (toString size)))
      (IndexKey.metaRow br) (IndexVal.metaV size mime) }

/-! ## Theorems -/

/-- C4 counterexample: `CommitBatch` is not atomic.  On the empty store, the
batch `[set "a" "1", delete "b"]` returns an error (the delete hits mongo's
`ErrNotFound`) yet leaves the first mutation applied: the store is changed
even though `CommitBatch` returned an error. -/
theorem commitBatch_not_atomic :
    CommitBatch [] [Mutation.set "a" "1", Mutation.del "b"] =
      ([("a", "1")], some "not found") ∧
    ([("a", "1")] : MongoStore) ≠ [] := by
  decide

/-- C4 amended: `CommitBatch` applies the batch's mutations sequentially.
When it returns no error, every mutation was applied; when it returns an
error, the batch splits at a delete of an absent key and exactly the
mutations before that delete remain applied — the store may be left
partially modified. -/
theorem commitBatch_applies_prefix (db : MongoStore) (ms : List Mutation) :
    ((CommitBatch db ms).2 = none ∧ (CommitBatch db ms).1 = applySeq db ms) ∨
    (∃ pre k suf, ms = pre ++ Mutation.del k :: suf ∧
      (CommitBatch db ms).2 = some "not found" ∧
      (CommitBatch db ms).1 = applySeq db pre ∧
      ((applySeq db pre).lookup k) = none) := by
  induction ms generalizing db with
  | nil => exact Or.inl ⟨rfl, rfl⟩
  | cons m ms ih =>
    cases m with
    | set k v =>
      have hstep : CommitBatch db (Mutation.set k v :: ms) =
          CommitBatch (mongoUpsert db k v) ms := rfl
      have happ : applySeq db (Mutation.set k v :: ms) =
          applySeq (mongoUpsert db k v) ms := rfl
      rcases ih (mongoUpsert db k v) with ⟨h1, h2⟩ | ⟨pre, k2, suf, heq, h1, h2, h3⟩
      · exact Or.inl ⟨by rw [hstep]; exact h1, by rw [hstep, happ]; exact h2⟩
      · refine Or.inr ⟨Mutation.set k v :: pre, k2, suf, by simp [heq], ?_, ?_, ?_⟩
        · rw [hstep]; exact h1
        · rw [hstep]; exact h2
        · exact h3
    | del k =>
      by_cases hk : (db.lookup k).isSome
      · have hrem : mongoRemove db k = some (db.filter (fun p => p.1 ≠ k)) := by
          simp [mongoRemove, hk]
        have hstep : CommitBatch db (Mutation.del k :: ms) =
            CommitBatch (db.filter (fun p => p.1 ≠ k)) ms := by
          simp [CommitBatch, hrem]
        have happ : applySeq db (Mutation.del k :: ms) =
            applySeq (db.filter (fun p => p.1 ≠ k)) ms := rfl
        rcases ih (db.filter (fun p => p.1 ≠ k)) with ⟨h1, h2⟩ | ⟨pre, k2, suf, heq, h1, h2, h3⟩
        · exact Or.inl ⟨by rw [hstep]; exact h1, by rw [hstep, happ]; exact h2⟩
        · refine Or.inr ⟨Mutation.del k :: pre, k2, suf, by simp [heq], ?_, ?_, ?_⟩
          · rw [hstep]; exact h1
          · rw [hstep]; exact h2
          · exact h3
      · have hrem : mongoRemove db k = none := by simp [mongoRemove, hk]
        refine Or.inr ⟨[], k, ms, rfl, ?_, ?_, ?_⟩
        · simp [CommitBatch, hrem]
        · simp [CommitBatch, hrem, applySeq]
        · show db.lookup k = none
          cases hl : db.lookup k with
          | none => rfl
          | some v => exact absurd (by simp [hl]) hk

/-- C7: the code contradicts `PermanodeModtime`'s own documentation ("A
deleted claim is ignored and neither its claim date nor the date of the
delete claim affect the modtime"): `Corpus.isDeletedLocked` is a
`TODO: implement` stub returning `false`, so a permanode whose only claim is
itself deleted (per the index's deletes cache) still reports that claim's
date as its modtime, with `ok = true`. -/
theorem permanodeModtime_counts_deleted_claims :
    isDeletedF oneClaimDeletes 2 "sha1-cl" = true ∧
    oneClaimCorpus.isDeletedLocked "sha1-cl" = false ∧
    oneClaimCorpus.PermanodeModtimeLocked "sha1-pn" = (5, true) := by
  decide

/-- C8: `ReceiveBlob` is idempotent.  When the `have:<ref>` row is already
present, a second receive of the blob returns its sized ref successfully and
leaves the index state — KV store, deletes cache, everything — unchanged. -/
theorem receiveBlob_idempotent (ix : Index) (br : String) (sn : Sniffed)
    (v : IndexVal) (h : ix.s.lookup (IndexKey.haveRow br) = some v) :
    ix.ReceiveBlob br sn = Except.ok (⟨br, sn.size⟩, ix) := by
  simp [Index.ReceiveBlob, h]

/-- C8 witness. -/
theorem receiveBlob_idempotent_witness :
    Index.ReceiveBlob ixHaveAA "sha1-aa" ⟨3, "text/plain", none⟩ =
      Except.ok (⟨"sha1-aa", 3⟩, ixHaveAA) :=
  receiveBlob_idempotent ixHaveAA "sha1-aa" ⟨3, "text/plain", none⟩
    (IndexVal.str "3") (by decide)

/-- C9: a verified delete claim whose target is not indexed as a permanode
or a claim — including an invalid target and a target with unknown
metadata — adds nothing to the mutation map: no `deleted|`, `recpn|` or
`claim|` rows are emitted. -/
theorem populateDeleteClaim_no_rows (ix : Index) (cl : ClaimBlob) (mm : MutationMap)
    (h : cl.target = "" ∨ ix.GetBlobMeta cl.target = none ∨
      ∃ meta, ix.GetBlobMeta cl.target = some meta ∧
        meta.camliType ≠ "permanode" ∧ meta.camliType ≠ "claim") :
    populateDeleteClaim ix cl mm = mm := by
  unfold populateDeleteClaim
  rcases h with h | h | ⟨meta, hm, h1, h2⟩
  · simp [h]
  · by_cases ht : cl.target = ""
    · simp [ht]
    · simp [ht, h]
  · by_cases ht : cl.target = ""
    · simp [ht]
    · simp [ht, hm, h1, h2]

/-- C9 witness: a delete claim of an unindexed target on the empty index. -/
theorem populateDeleteClaim_no_rows_witness :
    populateDeleteClaim ixEmpty delClaimUnknown ⟨[], []⟩ = ⟨[], []⟩ :=
  populateDeleteClaim_no_rows ixEmpty delClaimUnknown ⟨[], []⟩
    (Or.inr (Or.inl (by decide)))

/-- C1 counterexample: a claim blob whose signature fails verification does
not make `ReceiveBlob` succeed — `populateClaim` returns an error, which
propagates out of `ReceiveBlob` before anything is committed (so not even the
`have:`/`meta:` rows are stored, contradicting "the blob is still stored …
ReceiveBlob succeeds"). -/
theorem receiveBlob_badsig_counterexample :
    Index.ReceiveBlob ixEmpty "sha1-cc"
        ⟨5, "application/json; camliType=claim", some (SchemaParsed.claimB cbBadSig)⟩ =
      Except.error "index: populateClaim verification failure" := by
  rfl

/-- C1 amended: a received claim blob (well formed, not yet indexed) whose
signature fails verification makes `populateClaim` — and hence
`ReceiveBlob` — return an error; nothing is committed (no rows at all, and
the deletes cache is untouched, since the Go method returns before
`commit`). -/
theorem receiveBlob_badsig (ix : Index) (br : String) (size : Nat) (mime : String)
    (cb : ClaimBlob) (hhave : ix.s.lookup (IndexKey.haveRow br) = none)
    (hw : cb.wellFormed = true) (hv : cb.verifies = false) :
    ix.ReceiveBlob br ⟨size, mime, some (SchemaParsed.claimB cb)⟩ =
      Except.error (cb.verifyErrMsg.getD "index: populateClaim verification failure") := by
  simp [Index.ReceiveBlob, hhave, populateMutationMap, populateClaim, hw, hv]

/-- C1 witness. -/
theorem receiveBlob_badsig_witness :
    Index.ReceiveBlob ixEmpty "sha1-cc"
        ⟨5, "application/json; camliType=claim", some (SchemaParsed.claimB cbBadSig)⟩ =
      Except.error (cbBadSig.verifyErrMsg.getD "index: populateClaim verification failure") :=
  receiveBlob_badsig ixEmpty "sha1-cc" 5 "application/json; camliType=claim" cbBadSig
    (by decide) (by decide) (by decide)

/-- C6 counterexample: receiving a file schema blob whose chunk blobs cannot
be fetched succeeds and commits exactly the `have:`/`meta:` rows, but the
missing dependency is NOT recorded anywhere for a later reindex: the miss
tracker collected `sha1-chunk`, yet the resulting index state's
`pendingReindex` record (the spec's asserted recording, which the source only
has a TODO for) stays empty. -/
theorem receiveBlob_missing_dep_not_recorded :
    Index.ReceiveBlob ixEmpty "sha1-ff"
        ⟨3, "application/json; camliType=file", some (SchemaParsed.fileB fbMissingChunk)⟩ =
      Except.ok (⟨"sha1-ff", 3⟩,
        { s := [(IndexKey.haveRow "sha1-ff", IndexVal.str "3"),
                (IndexKey.metaRow "sha1-ff", IndexVal.metaV 3 "application/json; camliType=file")],
          deletes := [], pendingReindex := [] }) ∧
    fbMissingChunk.missingOnRead = ["sha1-chunk"] := by
  exact ⟨rfl, rfl⟩

/-- C6 amended: when indexing a file blob fails because its chunks cannot be
fetched (`NewFileReader` or the contents copy fails), `ReceiveBlob` still
succeeds and commits exactly the `have:`/`meta:` rows; the missing refs are
only collected in-memory by the fetch-miss tracker during the call and are
not recorded for a later reindex (the deletes cache and the pending-reindex
record are unchanged). -/
theorem receiveBlob_missing_dep (ix : Index) (br : String) (size : Nat) (mime : String)
    (fb : FileBlob) (hhave : ix.s.lookup (IndexKey.haveRow br) = none)
    (hfail : fb.readerErr = true ∨ fb.copyErr = true) :
    ix.ReceiveBlob br ⟨size, mime, some (SchemaParsed.fileB fb)⟩ =
      Except.ok (⟨br, size⟩, ix.withHaveMeta br size mime) := by
  rcases hfail with hf | hf
  · simp [Index.ReceiveBlob, hhave, populateMutationMap, populateFile, hf, Index.commit,
      Index.withHaveMeta, pure, Except.pure]
  · by_cases hr : fb.readerErr = true
    · simp [Index.ReceiveBlob, hhave, populateMutationMap, populateFile, hr, Index.commit,
        Index.withHaveMeta, pure, Except.pure]
    · simp [Index.ReceiveBlob, hhave, populateMutationMap, populateFile, hr, hf, Index.commit,
        Index.withHaveMeta, pure, Except.pure]

/-- C6 witness. -/
theorem receiveBlob_missing_dep_witness :
    Index.ReceiveBlob ixEmpty "sha1-ff"
        ⟨3, "application/json; camliType=file", some (SchemaParsed.fileB fbMissingChunk)⟩ =
      Except.ok (⟨"sha1-ff", 3⟩,
        ixEmpty.withHaveMeta "sha1-ff" 3 "application/json; camliType=file") :=
  receiveBlob_missing_dep ixEmpty "sha1-ff" 3 "application/json; camliType=file" fbMissingChunk
    (by decide) (Or.inl (by decide))

/-- A guarded fold equals the fold over the filtered list (used to relate the
corpus claim replay to the spec's filter-then-reduce shape). -/
theorem foldl_guarded_eq_foldl_filter {α β : Type} (p : α → Bool) (f : β → α → β) :
    ∀ (l : List α) (init : β),
      l.foldl (fun dst cl => if p cl then dst else f dst cl) init =
        (l.filter (fun cl => !p cl)).foldl f init := by
  intro l
  induction l with
  | nil => intro init; rfl
  | cons cl l ih =>
    intro init
    cases hp : p cl with
    | true => simp [List.foldl_cons, List.filter_cons, hp, ih]
    | false => simp [List.foldl_cons, List.filter_cons, hp, ih]

/-- C3 counterexample: two add-attribute claims for the same value produce a
duplicated value list, not the spec's "keeping values unique" reduction: the
corpus query returns `["x", "x"]` while the reduction the claim describes
returns `["x"]`. -/
theorem appendPermanodeAttrValues_duplicates :
    dupAddCorpus.AppendPermanodeAttrValuesLocked "sha1-pn" "tag" 0 100 "" = ["x", "x"] ∧
    specAttrValueReductionUnique dupAddClaims "tag" 100 "" = ["x"] ∧
    (["x", "x"] : List String) ≠ ["x"] := by
  exact ⟨rfl, rfl, by decide⟩

/-- C3 amended: for a permanode whose (date-sorted) claims are in the corpus,
the attribute-value query equals the reduction of the selected claims
(matching attribute, not after the cutoff, matching the signer filter)
applied in date order, where set clears then sets its single value, add
appends the value unconditionally (duplicates are possible), del with a value
removes that value and del with an empty value clears the list. -/
theorem appendPermanodeAttrValues_eq_reduction (c : Corpus) (pn attr : String)
    (atTime now : Nat) (signerFilter : String) (pm : PermanodeMeta)
    (hpm : c.permanodes.lookup pn = some pm)
    (_hsorted : pm.claims.Sorted (fun a b => a.date ≤ b.date)) :
    c.AppendPermanodeAttrValuesLocked pn attr atTime now signerFilter =
      specAttrValueReduction pm.claims attr (if atTime = 0 then now else atTime)
        signerFilter := by
  unfold Corpus.AppendPermanodeAttrValuesLocked specAttrValueReduction
  rw [hpm]
  exact foldl_guarded_eq_foldl_filter _ _ pm.claims []

/-- C3 witness: the E3 scenario (set title, add tag x, add tag y, del tag x). -/
theorem appendPermanodeAttrValues_eq_reduction_witness :
    e3Corpus.AppendPermanodeAttrValuesLocked "sha1-pn" "tag" 0 100 "" =
      specAttrValueReduction e3Claims "tag" (if (0 : Nat) = 0 then 100 else 0) "" :=
  appendPermanodeAttrValues_eq_reduction e3Corpus "sha1-pn" "tag" 0 100 "" ⟨e3Claims⟩
    (by decide) (by decide)

/-- `List.any` only depends on the predicate's values on the list. -/
theorem list_any_congr {α : Type} {l : List α} {f g : α → Bool}
    (h : ∀ a ∈ l, f a = g a) : l.any f = l.any g := by
  induction l with
  | nil => rfl
  | cons x xs ih =>
    simp only [List.any_cons]
    rw [h x (List.mem_cons_self x xs), ih (fun a ha => h a (List.mem_cons_of_mem x ha))]

/-- Once the fuel exceeds the rank of the blob in the (acyclic) deleter
graph, `isDeletedF` no longer depends on the fuel. -/
theorem isDeletedF_stable (m : DeletesCache) (rank : String → Nat)
    (hr : ∀ br dels d, m.lookup br = some dels → d ∈ dels → rank d.deleter < rank br) :
    ∀ (k : Nat) (br : String) (n₁ n₂ : Nat), rank br < k → rank br < n₁ → rank br < n₂ →
      isDeletedF m n₁ br = isDeletedF m n₂ br := by
  intro k
  induction k with
  | zero => intro br n₁ n₂ hk; exact absurd hk (Nat.not_lt_zero _)
  | succ k ih =>
    intro br n₁ n₂ hk h1 h2
    obtain ⟨a, rfl⟩ : ∃ a, n₁ = a + 1 := ⟨n₁ - 1, by omega⟩
    obtain ⟨b, rfl⟩ : ∃ b, n₂ = b + 1 := ⟨n₂ - 1, by omega⟩
    simp only [isDeletedF]
    cases hl : m.lookup br with
    | none => rfl
    | some dels =>
      refine list_any_congr (fun d hd => ?_)
      have hlt := hr br dels d hl hd
      rw [ih d.deleter a b (by omega) (by omega) (by omega)]

/-- C2: with enough fuel (any bound above the blob's rank in the acyclic
deleter graph), `isDeleted` returns true iff some delete-claim targeting the
blob is itself not deleted.  In particular a delete-claim that is itself
deleted does not count, and a chain of deletes alternates as in scenario E4. -/
theorem isDeleted_iff (m : DeletesCache) (rank : String → Nat)
    (hr : ∀ br dels d, m.lookup br = some dels → d ∈ dels → rank d.deleter < rank br)
    (br : String) (n : Nat) (hn : rank br < n) :
    isDeletedF m n br = true ↔
      ∃ dels, m.lookup br = some dels ∧
        ∃ d ∈ dels, isDeletedF m n d.deleter = false := by
  obtain ⟨a, rfl⟩ : ∃ a, n = a + 1 := ⟨n - 1, by omega⟩
  constructor
  · intro htrue
    rw [show isDeletedF m (a + 1) br =
        (match m.lookup br with
         | none => false
         | some dels => dels.any (fun v => !(isDeletedF m a v.deleter))) from rfl] at htrue
    cases hl : m.lookup br with
    | none => rw [hl] at htrue; exact absurd htrue (by simp)
    | some dels =>
      rw [hl] at htrue
      rw [List.any_eq_true] at htrue
      obtain ⟨d, hd, hnot⟩ := htrue
      refine ⟨dels, rfl, d, hd, ?_⟩
      have hlt := hr br dels d hl hd
      rw [isDeletedF_stable m rank hr (rank d.deleter + 1) d.deleter (a + 1) a
        (by omega) (by omega) (by omega)]
      simpa using hnot
  · rintro ⟨dels, hl, d, hd, hfalse⟩
    rw [show isDeletedF m (a + 1) br =
        (match m.lookup br with
         | none => false
         | some dels => dels.any (fun v => !(isDeletedF m a v.deleter))) from rfl]
    rw [hl, List.any_eq_true]
    refine ⟨d, hd, ?_⟩
    have hlt := hr br dels d hl hd
    rw [isDeletedF_stable m rank hr (rank d.deleter + 1) d.deleter a (a + 1)
      (by omega) (by omega) (by omega)]
    simp [hfalse]

/-- C2 witness: the E4 chain (D3 deletes D2 deletes D1 deletes P). -/
theorem isDeleted_iff_witness :
    isDeletedF chainDeletes 4 "sha1-p" = true ↔
      ∃ dels, chainDeletes.lookup "sha1-p" = some dels ∧
        ∃ d ∈ dels, isDeletedF chainDeletes 4 d.deleter = false := by
  refine isDeleted_iff chainDeletes chainRank ?_ "sha1-p" 4 (by decide)
  intro br dels d hl hd
  by_cases h1 : br = "sha1-p"
  · subst h1
    simp only [chainDeletes, List.lookup] at hl
    rw [show (("sha1-p" : String) == "sha1-p") = true from by decide] at hl
    simp only [Option.some.injEq] at hl
    subst hl
    simp only [List.mem_singleton] at hd
    subst hd
    decide
  · by_cases h2 : br = "sha1-d1"
    · subst h2
      simp only [chainDeletes, List.lookup] at hl
      rw [show (("sha1-d1" : String) == "sha1-p") = false from by decide,
        show (("sha1-d1" : String) == "sha1-d1") = true from by decide] at hl
      simp only [Option.some.injEq] at hl
      subst hl
      simp only [List.mem_singleton] at hd
      subst hd
      decide
    · by_cases h3 : br = "sha1-d2"
      · subst h3
        simp only [chainDeletes, List.lookup] at hl
        rw [show (("sha1-d2" : String) == "sha1-p") = false from by decide,
          show (("sha1-d2" : String) == "sha1-d1") = false from by decide,
          show (("sha1-d2" : String) == "sha1-d2") = true from by decide] at hl
        simp only [Option.some.injEq] at hl
        subst hl
        simp only [List.mem_singleton] at hd
        subst hd
        decide
      · exfalso
        simp only [chainDeletes, List.lookup] at hl
        rw [show ((br : String) == "sha1-p") = false from by simp [h1],
          show ((br : String) == "sha1-d1") = false from by simp [h2],
          show ((br : String) == "sha1-d2") = false from by simp [h3]] at hl
        exact Option.noConfusion hl

/-- When every key the loop can still read is present, the scan always ends
in a 400 (either the too-many rejection or a bogus blobref). -/
theorem handleRemoveLoop_all_present (fv : String → String) :
    ∀ (fuel n : Nat) (acc : List String),
      (∀ i, n ≤ i → i < n + fuel → fv (blobKey i) ≠ "") →
      ∃ msg, handleRemoveLoop fv fuel n acc = RemoveResponse.badRequest msg := by
  intro fuel
  induction fuel with
  | zero => intro n acc _; exact ⟨_, rfl⟩
  | succ fuel ih =>
    intro n acc h
    have hne : fv (blobKey n) ≠ "" := h n (Nat.le_refl n) (by omega)
    simp only [handleRemoveLoop]
    rw [if_neg hne]
    cases hp : blobParse (fv (blobKey n)) with
    | none => exact ⟨_, rfl⟩
    | some r => exact ih (n + 1) (acc ++ [r]) (fun i h1 h2 => h i (by omega) (by omega))

/-- When the scan reaches an unparseable value (all keys before it present
and parseable), it ends in the bogus-blobref 400. -/
theorem handleRemoveLoop_bogus (fv : String → String) :
    ∀ (fuel n : Nat) (acc : List String) (j : Nat), n ≤ j → j < n + fuel →
      (∀ i, n ≤ i → i < j → fv (blobKey i) ≠ "" ∧ (blobParse (fv (blobKey i))).isSome) →
      fv (blobKey j) ≠ "" → blobParse (fv (blobKey j)) = none →
      ∃ msg, handleRemoveLoop fv fuel n acc = RemoveResponse.badRequest msg := by
  intro fuel
  induction fuel with
  | zero => intro n acc j h1 h2; omega
  | succ fuel ih =>
    intro n acc j h1 h2 hpre hne hnone
    by_cases hnj : n = j
    · subst hnj
      simp only [handleRemoveLoop]
      rw [if_neg hne, hnone]
      exact ⟨_, rfl⟩
    · have hlt : n < j := by omega
      obtain ⟨hne2, hsome⟩ := hpre n (Nat.le_refl n) hlt
      obtain ⟨r, hr⟩ := Option.isSome_iff_exists.mp hsome
      simp only [handleRemoveLoop]
      rw [if_neg hne2, hr]
      exact ih (n + 1) (acc ++ [r]) j (by omega) (by omega)
        (fun i ha hb => hpre i (by omega) hb) hne hnone

/-- When the scan hits a missing key (all keys before it present and
parseable), it succeeds and removes exactly the refs scanned so far. -/
theorem handleRemoveLoop_gap (fv : String → String) :
    ∀ (fuel n : Nat) (acc : List String) (j : Nat), n ≤ j → j < n + fuel →
      (∀ i, n ≤ i → i < j → fv (blobKey i) ≠ "" ∧ (blobParse (fv (blobKey i))).isSome) →
      fv (blobKey j) = "" →
      handleRemoveLoop fv fuel n acc =
        RemoveResponse.removed
          (acc ++ (List.range' n (j - n)).filterMap (fun i => blobParse (fv (blobKey i)))) := by
  intro fuel
  induction fuel with
  | zero => intro n acc j h1 h2; omega
  | succ fuel ih =>
    intro n acc j h1 h2 hpre hgap
    by_cases hnj : n = j
    · subst hnj
      simp only [handleRemoveLoop]
      rw [if_pos hgap]
      simp
    · have hlt : n < j := by omega
      obtain ⟨hne2, hsome⟩ := hpre n (Nat.le_refl n) hlt
      obtain ⟨r, hr⟩ := Option.isSome_iff_exists.mp hsome
      simp only [handleRemoveLoop]
      rw [if_neg hne2, hr]
      show handleRemoveLoop fv fuel (n + 1) (acc ++ [r]) = _
      rw [ih (n + 1) (acc ++ [r]) j (by omega) (by omega)
        (fun i ha hb => hpre i (by omega) hb) hgap]
      have hrange : List.range' n (j - n) = n :: List.range' (n + 1) (j - (n + 1)) := by
        have hjn : j - n = (j - (n + 1)) + 1 := by omega
        rw [hjn, List.range'_succ]
      rw [hrange]
      simp [hr]

/-- C10 counterexample: a request whose `blob<n>` values have a numbering gap
before an unparseable blobref is NOT rejected: `gapForm` carries the
unparseable value `bogusref` under `blob3`, yet (`blob2` being absent) the
handler stops scanning at the gap, responds success, and removes `blob1`'s
ref — contradicting "for every request containing an unparseable blobref it
responds 400 Bad Request and removes nothing". -/
theorem handleRemove_gap_counterexample :
    gapForm (blobKey 3) ≠ "" ∧ blobParse (gapForm (blobKey 3)) = none ∧
    handleRemove true gapForm = RemoveResponse.removed ["sha1-aa"] := by
  exact ⟨by decide, by decide, by decide⟩

/-- C10 amended: the handler scans `blob1`, `blob2`, … consecutively and
stops at the first absent value.  (1) If the `maxRemovesPerRequest` (1000)
consecutive values starting at `blob1` are all present it responds 400 Bad
Request and removes nothing — so at most 999 blobs are removed per request;
(2) if a scanned value is an unparseable blobref it responds 400 Bad Request
and removes nothing; (3) if the scan reaches a missing key first, it
succeeds and removes exactly the scanned refs — blob parameters after a
numbering gap are ignored rather than rejected. -/
theorem handleRemove_amended :
    (∀ fv : String → String,
      (∀ i, 1 ≤ i → i ≤ maxRemovesPerRequest → fv (blobKey i) ≠ "") →
      ∃ msg, handleRemove true fv = RemoveResponse.badRequest msg) ∧
    (∀ (fv : String → String) (j : Nat), 1 ≤ j → j ≤ maxRemovesPerRequest →
      (∀ i, 1 ≤ i → i < j → fv (blobKey i) ≠ "" ∧ (blobParse (fv (blobKey i))).isSome) →
      fv (blobKey j) ≠ "" → blobParse (fv (blobKey j)) = none →
      ∃ msg, handleRemove true fv = RemoveResponse.badRequest msg) ∧
    (∀ (fv : String → String) (j : Nat), 1 ≤ j → j ≤ maxRemovesPerRequest →
      (∀ i, 1 ≤ i → i < j → fv (blobKey i) ≠ "" ∧ (blobParse (fv (blobKey i))).isSome) →
      fv (blobKey j) = "" →
      handleRemove true fv =
        RemoveResponse.removed
          ((List.range' 1 (j - 1)).filterMap (fun i => blobParse (fv (blobKey i))))) := by
  refine ⟨fun fv h => ?_, fun fv j h1 h2 hpre hne hnone => ?_, fun fv j h1 h2 hpre hgap => ?_⟩
  · simp only [handleRemove, if_pos]
    exact handleRemoveLoop_all_present fv maxRemovesPerRequest 1 []
      (fun i hi1 hi2 => h i hi1 (by omega))
  · simp only [handleRemove, if_pos]
    exact handleRemoveLoop_bogus fv maxRemovesPerRequest 1 [] j h1 (by
      show j < 1 + maxRemovesPerRequest
      omega) hpre hne hnone
  · simp only [handleRemove, if_pos]
    have := handleRemoveLoop_gap fv maxRemovesPerRequest 1 [] j h1 (by
      show j < 1 + maxRemovesPerRequest
      omega) hpre hgap
    simpa using this

/-- C10 witness: all three amended clauses at concrete requests. -/
theorem handleRemove_amended_witness :
    (∃ msg, handleRemove true (fun _ => "sha1-aa") = RemoveResponse.badRequest msg) ∧
    (∃ msg, handleRemove true (fun k => if k = "blob1" then "nodash" else "") =
      RemoveResponse.badRequest msg) ∧
    handleRemove true gapForm =
      RemoveResponse.removed
        ((List.range' 1 (2 - 1)).filterMap (fun i => blobParse (gapForm (blobKey i)))) := by
  refine ⟨handleRemove_amended.1 (fun _ => "sha1-aa")
      (fun i _ _ => by show ("sha1-aa" : String) ≠ ""; decide),
    handleRemove_amended.2.1 (fun k => if k = "blob1" then "nodash" else "") 1
      (by decide) (by decide) (fun i hi1 hi2 => absurd hi2 (by omega))
      (by decide) (by decide),
    handleRemove_amended.2.2 gapForm 2 (by decide) (by decide)
      (fun i hi1 hi2 => ?_) (by decide)⟩
  have : i = 1 := by omega
  subst this
  exact ⟨by decide, by decide⟩

/-- On an ascending list, draining the prefix `≤ last` is exactly keeping the
elements `> last`. -/
theorem dropWhile_le_eq_filter_lt (last : Nat) :
    ∀ l : List Nat, l.Sorted (· < ·) →
      l.dropWhile (fun s => decide (s ≤ last)) = l.filter (fun s => decide (last < s)) := by
  intro l
  induction l with
  | nil => intro _; rfl
  | cons x xs ih =>
    intro hs
    rw [List.sorted_cons] at hs
    obtain ⟨hall, hxs⟩ := hs
    by_cases hx : x ≤ last
    · rw [List.dropWhile_cons_of_pos (by simpa using hx),
        List.filter_cons_of_neg (by simpa using not_lt.mpr hx)]
      exact ih hxs
    · have hlx : last < x := not_le.mp hx
      rw [List.dropWhile_cons_of_neg (by simpa using hx),
        List.filter_cons_of_pos (by simpa using hlx)]
      rw [List.filter_eq_self.mpr (fun a ha => decide_eq_true (lt_trans hlx (hall a ha)))]

theorem flatten_map_filter (p : Nat → Bool) :
    ∀ ps : List (List Nat),
      (ps.map (fun l => l.filter p)).flatten = ps.flatten.filter p := by
  intro ps
  induction ps with
  | nil => rfl
  | cons l ps ih =>
    rw [List.map_cons, List.flatten_cons, List.flatten_cons, List.filter_append, ih]

theorem minHead?_eq_none_iff :
    ∀ ps : List (List Nat), minHead? ps = none ↔ ∀ l ∈ ps, l = [] := by
  intro ps
  induction ps with
  | nil => simp [minHead?]
  | cons l ps ih =>
    cases l with
    | nil => simp only [minHead?]; rw [ih]; simp
    | cons x t =>
      simp only [minHead?]
      cases hps : minHead? ps with
      | none => simp
      | some m =>
        by_cases h : m < x
        · simp [h]
        · simp [h]

theorem minHead?_spec :
    ∀ ps : List (List Nat), (∀ l ∈ ps, l.Sorted (· < ·)) →
      ∀ m, minHead? ps = some m → m ∈ ps.flatten ∧ ∀ x ∈ ps.flatten, m ≤ x := by
  intro ps
  induction ps with
  | nil => intro _ m hm; simp [minHead?] at hm
  | cons l ps ih =>
    intro hs m hm
    cases l with
    | nil =>
      simp only [minHead?] at hm
      have := ih (fun l hl => hs l (List.mem_cons_of_mem _ hl)) m hm
      simpa using this
    | cons x t =>
      have hxt := hs _ (List.mem_cons_self _ _)
      rw [List.sorted_cons] at hxt
      obtain ⟨hallx, _⟩ := hxt
      simp only [minHead?] at hm
      cases hps : minHead? ps with
      | none =>
        rw [hps] at hm
        have hm2 : some x = some m := hm
        obtain rfl : x = m := by injection hm2
        have hall := (minHead?_eq_none_iff ps).mp hps
        constructor
        · rw [List.flatten_cons, List.mem_append]
          exact Or.inl (List.mem_cons_self _ _)
        · intro y hy
          rw [List.flatten_cons, List.mem_append] at hy
          rcases hy with hy | hy
          · rcases List.mem_cons.mp hy with rfl | hy
            · exact le_refl _
            · exact le_of_lt (hallx _ hy)
          · rw [List.mem_flatten] at hy
            obtain ⟨q, hqmem, hyq⟩ := hy
            rw [hall q hqmem] at hyq
            cases hyq
      | some m2 =>
        rw [hps] at hm
        have hm2 : (if m2 < x then some m2 else some x) = some m := hm
        obtain ⟨hm2mem, hm2bound⟩ := ih (fun l hl => hs l (List.mem_cons_of_mem _ hl)) m2 hps
        by_cases hc : m2 < x
        · rw [if_pos hc] at hm2
          obtain rfl : m2 = m := by injection hm2
          constructor
          · rw [List.flatten_cons, List.mem_append]
            exact Or.inr hm2mem
          · intro y hy
            rw [List.flatten_cons, List.mem_append] at hy
            rcases hy with hy | hy
            · rcases List.mem_cons.mp hy with rfl | hy
              · exact le_of_lt hc
              · exact le_of_lt (lt_trans hc (hallx _ hy))
            · exact hm2bound y hy
        · rw [if_neg hc] at hm2
          obtain rfl : x = m := by injection hm2
          have hxm2 : x ≤ m2 := not_lt.mp hc
          constructor
          · rw [List.flatten_cons, List.mem_append]
            exact Or.inl (List.mem_cons_self _ _)
          · intro y hy
            rw [List.flatten_cons, List.mem_append] at hy
            rcases hy with hy | hy
            · rcases List.mem_cons.mp hy with rfl | hy
              · exact le_refl _
              · exact le_of_lt (hallx _ hy)
            · exact le_trans hxm2 (hm2bound y hy)

/-- The ascending duplicate-free enumeration of a list's elements starts at
the minimum, followed by the enumeration of the elements above it. -/
theorem sort_min_cons (S : List Nat) (m : Nat) (hmem : m ∈ S)
    (hmin : ∀ x ∈ S, m ≤ x) :
    S.toFinset.sort (fun a b => a ≤ b) =
      m :: (S.filter (fun x => decide (m < x))).toFinset.sort (fun a b => a ≤ b) := by
  have hs1 : List.Sorted (fun a b => a ≤ b) (S.toFinset.sort (fun a b => a ≤ b)) :=
    Finset.sort_sorted _ _
  have hs2 : List.Sorted (fun a b => a ≤ b)
      (m :: (S.filter (fun x => decide (m < x))).toFinset.sort (fun a b => a ≤ b)) := by
    rw [List.sorted_cons]
    refine ⟨fun b hb => ?_, Finset.sort_sorted _ _⟩
    rw [Finset.mem_sort, List.mem_toFinset, List.mem_filter] at hb
    exact le_of_lt (of_decide_eq_true hb.2)
  have hnd1 : (S.toFinset.sort (fun a b => a ≤ b)).Nodup := Finset.sort_nodup _ _
  have hnd2 :
      (m :: (S.filter (fun x => decide (m < x))).toFinset.sort (fun a b => a ≤ b)).Nodup := by
    rw [List.nodup_cons]
    refine ⟨fun hmm => ?_, Finset.sort_nodup _ _⟩
    rw [Finset.mem_sort, List.mem_toFinset, List.mem_filter] at hmm
    exact lt_irrefl m (of_decide_eq_true hmm.2)
  refine List.eq_of_perm_of_sorted ?_ hs1 hs2
  rw [List.perm_ext_iff_of_nodup hnd1 hnd2]
  intro a
  rw [Finset.mem_sort, List.mem_toFinset, List.mem_cons, Finset.mem_sort,
    List.mem_toFinset, List.mem_filter]
  constructor
  · intro ha
    by_cases hax : a = m
    · exact Or.inl hax
    · exact Or.inr ⟨ha, decide_eq_true (lt_of_le_of_ne (hmin a ha) (Ne.symm hax))⟩
  · rintro (rfl | ⟨ha, _⟩)
    · exact hmem
    · exact ha

/-- The merge loop emits the first `n` elements of the ascending
duplicate-free enumeration of the elements above `last`. -/
theorem mergeLoop_eq :
    ∀ (n last : Nat) (ps : List (List Nat)),
      (∀ l ∈ ps, l.Sorted (· < ·)) →
      mergeLoop n last ps =
        ((ps.flatten.filter (fun s => decide (last < s))).toFinset.sort
          (fun a b => a ≤ b)).take n := by
  intro n
  induction n with
  | zero => intro last ps _; simp [mergeLoop]
  | succ n ih =>
    intro last ps hs
    have hdrop : ps.map (fun l => l.dropWhile (fun s => decide (s ≤ last))) =
        ps.map (fun l => l.filter (fun s => decide (last < s))) :=
      List.map_congr_left (fun l hl => dropWhile_le_eq_filter_lt last l (hs l hl))
    have hs2 : ∀ l ∈ ps.map (fun l => l.dropWhile (fun s => decide (s ≤ last))),
        l.Sorted (· < ·) := by
      rw [hdrop]
      intro l hl
      obtain ⟨l0, hl0, rfl⟩ := List.mem_map.mp hl
      exact (hs l0 hl0).filter _
    have hflat : (ps.map (fun l => l.dropWhile (fun s => decide (s ≤ last)))).flatten =
        ps.flatten.filter (fun s => decide (last < s)) := by
      rw [hdrop]
      exact flatten_map_filter _ ps
    simp only [mergeLoop]
    cases hm : minHead? (ps.map (fun l => l.dropWhile (fun s => decide (s ≤ last)))) with
    | none =>
      have hall := (minHead?_eq_none_iff _).mp hm
      have hnil : ps.flatten.filter (fun s => decide (last < s)) = [] := by
        rw [← hflat, List.flatten_eq_nil_iff]
        exact hall
      rw [hnil]
      simp
    | some m =>
      obtain ⟨hmem, hbound⟩ := minHead?_spec _ hs2 m hm
      rw [hflat] at hmem hbound
      show m :: mergeLoop n m (ps.map (fun l => l.dropWhile (fun s => decide (s ≤ last)))) = _
      rw [sort_min_cons _ m hmem hbound, List.take_succ_cons]
      congr 1
      rw [ih m _ hs2, hflat]

/-- C5: under the enumerate contract (each source yields its refs in strictly
ascending order, all greater than `after`, and none at rank 0 — no ref
formats as the empty string), `MergedEnumerate` sends exactly the sorted,
duplicate-free union of the sources' refs, truncated at `limit`, in
ascending order; every sent ref is greater than `after`; and the destination
channel is closed even when a source returns an error. -/
theorem MergedEnumerate_spec (sources : List (List Nat × Option String))
    (after : Nat) (limit : Nat)
    (hsorted : ∀ p ∈ sources, p.1.Sorted (· < ·))
    (hafter : ∀ p ∈ sources, ∀ x ∈ p.1, after < x)
    (hnonempty : ∀ p ∈ sources, ∀ x ∈ p.1, 0 < x) :
    (MergedEnumerate sources after limit).sent =
      (sortedDedupUnion (sources.map Prod.fst)).take limit ∧
    (MergedEnumerate sources after limit).closed = true ∧
    ∀ x ∈ (MergedEnumerate sources after limit).sent, after < x := by
  have hs2 : ∀ l ∈ sources.map Prod.fst, l.Sorted (· < ·) := by
    intro l hl
    obtain ⟨p, hp, rfl⟩ := List.mem_map.mp hl
    exact hsorted p hp
  have hfe : (sources.map Prod.fst).flatten.filter (fun s => decide (0 < s)) =
      (sources.map Prod.fst).flatten := by
    rw [List.filter_eq_self]
    intro a ha
    rw [List.mem_flatten] at ha
    obtain ⟨l, hl, hal⟩ := ha
    obtain ⟨p, hp, rfl⟩ := List.mem_map.mp hl
    exact decide_eq_true (hnonempty p hp a hal)
  have hsent : (MergedEnumerate sources after limit).sent =
      (sortedDedupUnion (sources.map Prod.fst)).take limit := by
    show mergeLoop limit 0 (sources.map Prod.fst) = _
    rw [mergeLoop_eq limit 0 _ hs2, hfe]
    rfl
  refine ⟨hsent, rfl, ?_⟩
  intro x hx
  rw [hsent] at hx
  have hx2 : x ∈ sortedDedupUnion (sources.map Prod.fst) := List.mem_of_mem_take hx
  rw [sortedDedupUnion, Finset.mem_sort, List.mem_toFinset, List.mem_flatten] at hx2
  obtain ⟨l, hl, hxl⟩ := hx2
  obtain ⟨p, hp, rfl⟩ := List.mem_map.mp hl
  exact hafter p hp x hxl

/-- C5 witness: two overlapping ascending sources, the second of which
returns an error (refs by rank: 2 ↦ e.g. `sha1-aa`, 3 ↦ `sha1-bb`,
4 ↦ `sha1-cc`; `after` at rank 1). -/
theorem MergedEnumerate_spec_witness :
    (MergedEnumerate [([2, 4], none), ([3, 4], some "enum error")] 1 10).sent =
      (sortedDedupUnion ([([2, 4], (none : Option String)),
        ([3, 4], some "enum error")].map Prod.fst)).take 10 ∧
    (MergedEnumerate [([2, 4], none), ([3, 4], some "enum error")] 1 10).closed = true ∧
    ∀ x ∈ (MergedEnumerate [([2, 4], none), ([3, 4], some "enum error")] 1 10).sent,
      1 < x := by
  refine MergedEnumerate_spec _ 1 10 ?_ ?_ ?_ <;>
    · intro p hp
      rcases List.mem_cons.mp hp with rfl | hp2
      · decide
      · rcases List.mem_cons.mp hp2 with rfl | hp3
        · decide
        · cases hp3

end Camlistore
